import Mathlib

/-!
Shallow embedding of the `taoluo/simpy` repository: the differential-privacy
budget store scenario (`docs/examples/code/dp_sim.py`) and the generic
resource-queue primitives (`simpy/resources/resource.py`).

Python floats are modelled as rationals; the Python dict used for a data
block becomes a structure; the in-place mutation performed by
`DPStore._do_get` becomes explicit state passing on the store's item list.
The random draws (`random.sample`, `random.randint`) are parameters of the
embedded functions, constrained by the stdlib contracts they satisfy.
-/

/-- A data-block record as built by `block_generator` in `dp_sim.py`:
`{"timestamp": env.now, "block_id": next(data_block_id), "epsilon": INIT_EPSILON,
"comment": ...}`. -/
structure DataBlock where
  timestamp : Nat
  block_id : Nat
  epsilon : ℚ
  comment : String
  deriving DecidableEq

/-- Default block used to totalise list indexing (`random.sample` only ever
produces in-range indices, so the default is never read along valid runs). -/
def dummyBlock : DataBlock := { timestamp := 0, block_id := 0, epsilon := 0, comment := "" }

/-- The withdrawal request `DPStoreGet(resource, epsilon, block_nr)`. -/
structure DPStoreGet where
  epsilon : ℚ
  block_nr : Nat

/-- The per-block charge performed inside the loop of `DPStore._do_get`:
`if block["epsilon"] - event.epsilon < 0: block["epsilon"] = -1
else: block["epsilon"] = block["epsilon"] - event.epsilon`. -/
def chargeBlock (eps : ℚ) (b : DataBlock) : DataBlock :=
  if b.epsilon - eps < 0 then { b with epsilon := -1 }
  else { b with epsilon := b.epsilon - eps }

/-- The loop body of `DPStore._do_get`: for each sampled index `i`, charge
`self.items[i]` in place and append the (mutated) block to `return_blocks`.
Returns the list of returned blocks and the post-loop item list. -/
def doGetLoop (eps : ℚ) : List Nat → List DataBlock → List DataBlock × List DataBlock
  | [], items => ([], items)
  | i :: rest, items =>
      let b := chargeBlock eps (items.getD i dummyBlock)
      let step := doGetLoop eps rest (items.set i b)
      (b :: step.1, step.2)

/-- `DPStore._do_get`: if `len(self.items) >= event.block_nr`, run the charge
loop over the sampled indices and trigger the event with the returned blocks
(`some return_blocks`); otherwise leave the event untriggered (`none`) and the
items untouched. `sample` stands for the draw
`random.sample(range(len(self.items)), k=event.block_nr)`. -/
def DPStore._do_get (items : List DataBlock) (event : DPStoreGet) (sample : List Nat) :
    Option (List DataBlock) × List DataBlock :=
  if event.block_nr ≤ items.length then
    let r := doGetLoop event.epsilon sample items
    (some r.1, r.2)
  else (none, items)

/-- The contract of the stdlib draw `random.sample(range(m), k)`: `k` distinct
positions, each below `m`, listed in the random sampling order. -/
def validSample (m k : Nat) (s : List Nat) : Prop :=
  s.length = k ∧ s.Nodup ∧ ∀ i ∈ s, i < m

instance (m k : Nat) (s : List Nat) : Decidable (validSample m k s) := by
  unfold validSample
  infer_instance

/-- One operation on the store: a deposit (`put`, inherited unchanged from
`Store`: append one item) or a withdrawal attempt (`get`, resolved by
`DPStore._do_get` with a given sample). -/
inductive DPOp where
  | put : DataBlock → DPOp
  | get : DPStoreGet → List Nat → DPOp

/-- Effect of one operation on the store's item list. -/
def applyOp (items : List DataBlock) : DPOp → List DataBlock
  | DPOp.put b => items ++ [b]
  | DPOp.get ev s => (DPStore._do_get items ev s).2

/-- Run a sequence of deposits and withdrawal attempts. -/
def runOps (items : List DataBlock) : List DPOp → List DataBlock
  | [] => items
  | op :: ops => runOps (applyOp items op) ops

/-- Whether an operation is a deposit. -/
def DPOp.isPut : DPOp → Bool
  | DPOp.put _ => true
  | DPOp.get _ _ => false

/-- The scenario's well-formedness of an operation: deposits carry a budget of
at least the sentinel (the producer always deposits `INIT_EPSILON = 5`), and
withdrawal costs are non-negative floats (the consumer always charges `0.6`). -/
def opOk : DPOp → Prop
  | DPOp.put b => -1 ≤ b.epsilon
  | DPOp.get ev _ => 0 ≤ ev.epsilon

/-- All blocks in the store carry a budget of at least the sentinel value. -/
def epsOkItems (items : List DataBlock) : Prop :=
  ∀ b ∈ items, -1 ≤ b.epsilon

/-- The non-epsilon fields of a block (used to state frame conditions). -/
def blockData (b : DataBlock) : Nat × Nat × String :=
  (b.timestamp, b.block_id, b.comment)

/-- Scenario constant `SIM_TIME = 100`. -/
def SIM_TIME : Nat := 100

/-- Scenario constant `INIT_EPSILON: float = 5`. -/
def INIT_EPSILON : ℚ := 5

/-- Scenario constant `BLOCK_ARRIVAL_PERIOD = 10`. -/
def BLOCK_ARRIVAL_PERIOD : Nat := 10

/-- Modelled from the spec: the virtual-clock engine core (simpy's
`Environment.run` / `timeout`, which is not among the sources here) advances
the clock in time order and stops at the horizon; per the spec's scenario
check, a process step scheduled exactly at the horizon still runs (the last
block "may fall exactly at the horizon boundary"). A process that repeatedly
waits `period` time units therefore acts at times `period, 2*period, ...` up
to and including `horizon`. The first argument is recursion fuel; `horizon`
steps suffice whenever `period ≥ 1`. -/
def generatorTimes : Nat → Nat → Nat → Nat → List Nat
  | 0, _, _, _ => []
  | fuel + 1, now, period, horizon =>
      if now + period ≤ horizon then
        (now + period) :: generatorTimes fuel (now + period) period horizon
      else []

/-- The blocks produced by `block_generator` over a full run to `horizon`:
one per arrival time, with `timestamp = env.now`, `block_id` drawn from the
`count()` counter starting at 0, `epsilon = INIT_EPSILON`, and the greeting
comment. -/
def block_generator_blocks (name : String) (horizon period : Nat) : List DataBlock :=
  (generatorTimes horizon 0 period horizon).enum.map
    (fun p =>
      { timestamp := p.2, block_id := p.1, epsilon := INIT_EPSILON,
        comment := name ++ " says hello at " ++ toString p.2 })

/-- The contract of the stdlib draw `random.randint(a, b)`: a uniformly
distributed integer in the inclusive range `[a, b]`. -/
def randint_spec (randint : Nat → Nat → Nat) : Prop :=
  ∀ a b, a ≤ b → a ≤ randint a b ∧ randint a b ≤ b

/-- The withdrawal request issued by `consumer`: the fixed cost
`epsilon: float = 0.6` and the demand
`block_demand_nr: int = random.randint(*[1, 2*SIM_TIME/BLOCK_ARRIVAL_PERIOD])`,
drawn once before the single `in_pipe.get(epsilon, block_demand_nr)` call. -/
def consumer_request (randint : Nat → Nat → Nat) : ℚ × Nat :=
  (0.6, randint 1 (2 * SIM_TIME / BLOCK_ARRIVAL_PERIOD))

/-- An event held in a `SortedQueue`, reduced to its sorting key (the `key`
attribute, e.g. a `PriorityRequest`'s `(priority, time)`) and an identifier. -/
structure SQEvent where
  key : ℚ
  eid : Nat
  deriving DecidableEq

/-- Order on queue events: ascending `key`. -/
def keyLE (a b : SQEvent) : Prop := a.key ≤ b.key

instance : DecidableRel keyLE := fun a b => inferInstanceAs (Decidable (a.key ≤ b.key))

instance : IsTotal SQEvent keyLE := ⟨fun a b => le_total a.key b.key⟩

instance : IsTrans SQEvent keyLE := ⟨fun _ _ _ h1 h2 => le_trans h1 h2⟩

/-- `SortedQueue.append`: raise `ValueError` (leaving the list untouched) when
the bounded queue already holds `maxlen` items, otherwise append the item and
re-sort the whole list by the events' `key` attribute (Python's stable keyed
`list.sort`, modelled as an insertion sort, which yields the same sorted
result). -/
def SortedQueue.append (maxlen : Option Nat) (elems : List SQEvent) (item : SQEvent) :
    Except String Unit × List SQEvent :=
  match maxlen with
  | some m =>
      if m ≤ elems.length then
        (Except.error "Cannot append event. Queue is full.", elems)
      else (Except.ok (), List.insertionSort keyLE (elems ++ [item]))
  | none => (Except.ok (), List.insertionSort keyLE (elems ++ [item]))

/-- Python's `list.remove(x)`: drop the first occurrence of `x`, or raise
`ValueError` when `x` is absent. Resource users are identified by tokens. -/
def list_remove (xs : List Nat) (a : Nat) : Except String (List Nat) :=
  if a ∈ xs then Except.ok (xs.erase a) else Except.error "list.remove(x): x not in list"

/-- `Resource._do_get`: try to remove the released request from `self.users`,
swallow the `ValueError` if it is not there, and trigger the `Release` event
unconditionally (`event.succeed()`). Returns the new user list and whether the
event was triggered. -/
def Resource._do_get (users : List Nat) (request : Nat) : List Nat × Bool :=
  match list_remove users request with
  | Except.ok users2 => (users2, true)
  | Except.error _ => (users, true)

/-! ### Helper lemmas about the per-block charge -/

/-- The epsilon field after one charge. -/
lemma chargeBlock_epsilon (eps : ℚ) (b : DataBlock) :
    (chargeBlock eps b).epsilon = if b.epsilon - eps < 0 then -1 else b.epsilon - eps := by
  by_cases h : b.epsilon - eps < 0 <;> simp [chargeBlock, h]

/-- A charge does not touch the non-epsilon fields. -/
lemma chargeBlock_blockData (eps : ℚ) (b : DataBlock) :
    blockData (chargeBlock eps b) = blockData b := by
  by_cases h : b.epsilon - eps < 0 <;> simp [chargeBlock, blockData, h]

/-- A non-negative charge never increases a budget that is at least the
sentinel. -/
lemma chargeBlock_le (eps : ℚ) (b : DataBlock) (heps : 0 ≤ eps) (hb : -1 ≤ b.epsilon) :
    (chargeBlock eps b).epsilon ≤ b.epsilon := by
  rw [chargeBlock_epsilon]
  by_cases h : b.epsilon - eps < 0 <;> simp [h] <;> linarith

/-- A charge always leaves the budget at or above the sentinel. -/
lemma chargeBlock_lb (eps : ℚ) (b : DataBlock) : -1 ≤ (chargeBlock eps b).epsilon := by
  rw [chargeBlock_epsilon]
  by_cases h : b.epsilon - eps < 0 <;> simp [h] <;> linarith

/-- A non-negative charge on an exhausted block re-clamps it to the sentinel. -/
lemma chargeBlock_sentinel (eps : ℚ) (b : DataBlock) (heps : 0 ≤ eps)
    (hb : b.epsilon = -1) : (chargeBlock eps b).epsilon = -1 := by
  have h : b.epsilon - eps < 0 := by rw [hb]; linarith
  simp [chargeBlock, h]

/-! ### Helper lemmas about list indexing -/

/-- Reading a valid index with a default yields a member of the list. -/
lemma getD_mem_of_lt {α : Type} (xs : List α) (i : Nat) (d : α) (h : i < xs.length) :
    xs.getD i d ∈ xs := by
  rw [List.getD_eq_getElem?_getD, List.getElem?_eq_getElem h]
  exact List.getElem_mem h

/-- Reading back the position just written (in range). -/
lemma getD_set_self (items : List DataBlock) (j : Nat) (b : DataBlock)
    (h : j < items.length) : (items.set j b).getD j dummyBlock = b := by
  simp [List.getD_eq_getElem?_getD, List.getElem?_set_self, h]

/-- Writing one position leaves every other position unchanged. -/
lemma getD_set_ne (items : List DataBlock) (i j : Nat) (b : DataBlock) (h : j ≠ i) :
    (items.set j b).getD i dummyBlock = items.getD i dummyBlock := by
  simp [List.getD_eq_getElem?_getD, List.getElem?_set_ne h]

/-- Reading a mapped list at a valid index. -/
lemma getD_map_lt (s : List Nat) (f : Nat → DataBlock) (j : Nat) (h : j < s.length) :
    (s.map f).getD j dummyBlock = f (s.getD j 0) := by
  simp [List.getD_eq_getElem?_getD, List.getElem?_map, List.getElem?_eq_getElem h]

/-! ### Helper lemmas about the charge loop -/

/-- The charge loop never changes the number of items. -/
lemma doGetLoop_length (eps : ℚ) (s : List Nat) :
    ∀ items : List DataBlock, (doGetLoop eps s items).2.length = items.length := by
  induction s with
  | nil => intro items; rfl
  | cons j rest ih =>
      intro items
      simp only [doGetLoop]
      rw [ih]
      exact List.length_set items j _

/-- Positions outside the sample are untouched by the charge loop. -/
lemma doGetLoop_getElem?_not_mem (eps : ℚ) (s : List Nat) :
    ∀ (items : List DataBlock) (i : Nat), i ∉ s →
      ((doGetLoop eps s items).2)[i]? = items[i]? := by
  induction s with
  | nil => intro items i _; rfl
  | cons j rest ih =>
      intro items i hi
      have hij : j ≠ i := fun h => hi (h ▸ List.mem_cons_self j rest)
      simp only [doGetLoop]
      rw [ih _ i (fun h => hi (List.mem_cons_of_mem j h)), List.getElem?_set_ne hij]

/-- With a duplicate-free, in-range sample, the returned blocks are exactly the
charges of the originally stored blocks, in sampling order. -/
lemma doGetLoop_fst (eps : ℚ) (s : List Nat) :
    ∀ items : List DataBlock, s.Nodup → (∀ i ∈ s, i < items.length) →
      (doGetLoop eps s items).1 =
        s.map (fun i => chargeBlock eps (items.getD i dummyBlock)) := by
  induction s with
  | nil => intro items _ _; rfl
  | cons j rest ih =>
      intro items hnd hin
      have hj : j ∉ rest := (List.nodup_cons.mp hnd).1
      have hrest : rest.Nodup := (List.nodup_cons.mp hnd).2
      have hin2 : ∀ i ∈ rest, i < (items.set j (chargeBlock eps (items.getD j dummyBlock))).length := by
        intro i hi
        rw [List.length_set]
        exact hin i (List.mem_cons_of_mem j hi)
      simp only [doGetLoop, List.map_cons]
      rw [ih _ hrest hin2]
      refine congrArg _ (List.map_congr_left ?_)
      intro i hi
      have hij : j ≠ i := fun h => hj (h ▸ hi)
      rw [getD_set_ne items i j _ hij]

/-- With a duplicate-free, in-range sample, a sampled position holds the charge
of its original block once the loop is done. -/
lemma doGetLoop_snd_mem (eps : ℚ) (s : List Nat) :
    ∀ items : List DataBlock, s.Nodup → (∀ i ∈ s, i < items.length) →
      ∀ i ∈ s, ((doGetLoop eps s items).2)[i]? =
        some (chargeBlock eps (items.getD i dummyBlock)) := by
  induction s with
  | nil => intro items _ _ i hi; cases hi
  | cons j rest ih =>
      intro items hnd hin i hi
      have hj : j ∉ rest := (List.nodup_cons.mp hnd).1
      have hrest : rest.Nodup := (List.nodup_cons.mp hnd).2
      simp only [doGetLoop]
      rcases List.mem_cons.mp hi with rfl | hmem
      · have hlen : i < items.length := hin i (List.mem_cons_self i rest)
        rw [doGetLoop_getElem?_not_mem eps rest _ i hj]
        simp [List.getElem?_set_self, hlen]
      · have hin2 : ∀ a ∈ rest, a < (items.set j (chargeBlock eps (items.getD j dummyBlock))).length := by
          intro a ha
          rw [List.length_set]
          exact hin a (List.mem_cons_of_mem j ha)
        have hij : j ≠ i := fun h => hj (h ▸ hmem)
        rw [ih _ hrest hin2 i hmem, getD_set_ne items i j _ hij]

/-- One in-place charge at position `j`: pointwise the budgets do not increase
and the sentinel is preserved, at every position. -/
lemma set_charge_getD (eps : ℚ) (items : List DataBlock) (j : Nat)
    (heps : 0 ≤ eps) (hok : epsOkItems items) (i : Nat) :
    (((items.set j (chargeBlock eps (items.getD j dummyBlock))).getD i dummyBlock).epsilon ≤
        (items.getD i dummyBlock).epsilon) ∧
    ((items.getD i dummyBlock).epsilon = -1 →
      ((items.set j (chargeBlock eps (items.getD j dummyBlock))).getD i dummyBlock).epsilon = -1) := by
  by_cases hij : j = i
  · subst hij
    by_cases hlen : j < items.length
    · rw [getD_set_self items j _ hlen]
      have hmem : items.getD j dummyBlock ∈ items := getD_mem_of_lt items j dummyBlock hlen
      exact ⟨chargeBlock_le eps _ heps (hok _ hmem),
             fun h => chargeBlock_sentinel eps _ heps h⟩
    · rw [List.set_eq_of_length_le (le_of_not_lt hlen)]
      exact ⟨le_refl _, fun h => h⟩
  · rw [getD_set_ne items i j _ hij]
    exact ⟨le_refl _, fun h => h⟩

/-- One in-place charge keeps every stored budget at or above the sentinel. -/
lemma set_charge_epsOk (eps : ℚ) (items : List DataBlock) (j : Nat)
    (hok : epsOkItems items) :
    epsOkItems (items.set j (chargeBlock eps (items.getD j dummyBlock))) := by
  intro b hb
  rcases List.mem_or_eq_of_mem_set hb with h | h
  · exact hok b h
  · rw [h]; exact chargeBlock_lb eps _

/-- Over the whole charge loop, with a non-negative cost: stored budgets stay
at or above the sentinel, no budget increases, and an exhausted block stays
exhausted. -/
lemma doGetLoop_mono (eps : ℚ) (heps : 0 ≤ eps) (s : List Nat) :
    ∀ items : List DataBlock, epsOkItems items →
      epsOkItems (doGetLoop eps s items).2 ∧
      ∀ i, (((doGetLoop eps s items).2.getD i dummyBlock).epsilon ≤
              (items.getD i dummyBlock).epsilon) ∧
        ((items.getD i dummyBlock).epsilon = -1 →
          ((doGetLoop eps s items).2.getD i dummyBlock).epsilon = -1) := by
  induction s with
  | nil => intro items hok; exact ⟨hok, fun i => ⟨le_refl _, fun h => h⟩⟩
  | cons j rest ih =>
      intro items hok
      simp only [doGetLoop]
      have hok1 := set_charge_epsOk eps items j hok
      obtain ⟨hok2, hpt⟩ := ih _ hok1
      refine ⟨hok2, fun i => ?_⟩
      obtain ⟨hle1, hs1⟩ := set_charge_getD eps items j heps hok i
      obtain ⟨hle2, hs2⟩ := hpt i
      exact ⟨le_trans hle2 hle1, fun h => hs2 (hs1 h)⟩

/-- The charge loop does not touch the non-epsilon fields of any position. -/
lemma doGetLoop_blockData (eps : ℚ) (s : List Nat) :
    ∀ (items : List DataBlock) (i : Nat),
      blockData ((doGetLoop eps s items).2.getD i dummyBlock) =
        blockData (items.getD i dummyBlock) := by
  induction s with
  | nil => intro items i; rfl
  | cons j rest ih =>
      intro items i
      simp only [doGetLoop]
      rw [ih]
      by_cases hij : j = i
      · subst hij
        by_cases hlen : j < items.length
        · rw [getD_set_self items j _ hlen, chargeBlock_blockData]
        · rw [List.set_eq_of_length_le (le_of_not_lt hlen)]
      · rw [getD_set_ne items i j _ hij]

/-! ### Helper lemmas about the withdrawal operation and operation runs -/

/-- A withdrawal attempt never changes the number of stored items. -/
lemma do_get_snd_length (items : List DataBlock) (ev : DPStoreGet) (s : List Nat) :
    (DPStore._do_get items ev s).2.length = items.length := by
  unfold DPStore._do_get
  by_cases h : ev.block_nr ≤ items.length <;> simp [h, doGetLoop_length]

/-- Effect of one operation on the item count. -/
lemma applyOp_length (items : List DataBlock) (op : DPOp) :
    (applyOp items op).length = items.length + (if op.isPut then 1 else 0) := by
  cases op with
  | put b => simp [applyOp, DPOp.isPut]
  | get ev s => simp [applyOp, DPOp.isPut, do_get_snd_length]

/-- The item count after a run: the initial count plus one per deposit. -/
lemma runOps_length (ops : List DPOp) :
    ∀ items : List DataBlock,
      (runOps items ops).length = items.length + ops.countP DPOp.isPut := by
  induction ops with
  | nil => intro items; simp [runOps]
  | cons op ops ih =>
      intro items
      rw [runOps, ih, applyOp_length, List.countP_cons]
      cases hput : op.isPut <;> simp [hput] <;> omega

/-- Unfolding equation for a withdrawal whose guard holds. -/
lemma do_get_eq_pos (items : List DataBlock) (ev : DPStoreGet) (s : List Nat)
    (h : ev.block_nr ≤ items.length) :
    DPStore._do_get items ev s =
      (some (doGetLoop ev.epsilon s items).1, (doGetLoop ev.epsilon s items).2) := by
  unfold DPStore._do_get
  rw [if_pos h]

/-- Unfolding equation for a withdrawal whose guard fails: the event stays
untriggered and the items are untouched. -/
lemma do_get_eq_neg (items : List DataBlock) (ev : DPStoreGet) (s : List Nat)
    (h : ¬ ev.block_nr ≤ items.length) :
    DPStore._do_get items ev s = (none, items) := by
  unfold DPStore._do_get
  rw [if_neg h]

/-- One operation: stored budgets stay at or above the sentinel, no existing
position's budget increases, and exhausted positions stay exhausted. -/
lemma applyOp_mono (items : List DataBlock) (op : DPOp) (hop : opOk op)
    (hok : epsOkItems items) :
    epsOkItems (applyOp items op) ∧
    ∀ i, i < items.length →
      (((applyOp items op).getD i dummyBlock).epsilon ≤ (items.getD i dummyBlock).epsilon) ∧
      ((items.getD i dummyBlock).epsilon = -1 →
        ((applyOp items op).getD i dummyBlock).epsilon = -1) := by
  cases op with
  | put b =>
      refine ⟨?_, fun i hi => ?_⟩
      · intro x hx
        rcases List.mem_append.mp hx with h | h
        · exact hok x h
        · rw [List.mem_singleton.mp h]
          exact hop
      · have hgetD : (items ++ [b]).getD i dummyBlock = items.getD i dummyBlock := by
          simp [List.getD_eq_getElem?_getD, List.getElem?_append, hi]
        simp only [applyOp]
        rw [hgetD]
        exact ⟨le_refl _, fun h => h⟩
  | get ev s =>
      simp only [applyOp]
      by_cases hg : ev.block_nr ≤ items.length
      · rw [do_get_eq_pos items ev s hg]
        obtain ⟨h1, h2⟩ := doGetLoop_mono ev.epsilon hop s items hok
        exact ⟨h1, fun i _ => h2 i⟩
      · rw [do_get_eq_neg items ev s hg]
        exact ⟨hok, fun i _ => ⟨le_refl _, fun h => h⟩⟩

/-- Over a whole run of well-formed operations: stored budgets stay at or above
the sentinel, no initial position's budget ever increases, and an exhausted
position stays exhausted. -/
lemma runOps_mono (ops : List DPOp) :
    ∀ items : List DataBlock, (∀ op ∈ ops, opOk op) → epsOkItems items →
      epsOkItems (runOps items ops) ∧
      ∀ i, i < items.length →
        (((runOps items ops).getD i dummyBlock).epsilon ≤ (items.getD i dummyBlock).epsilon) ∧
        ((items.getD i dummyBlock).epsilon = -1 →
          ((runOps items ops).getD i dummyBlock).epsilon = -1) := by
  induction ops with
  | nil => intro items _ hok; exact ⟨hok, fun i _ => ⟨le_refl _, fun h => h⟩⟩
  | cons op ops ih =>
      intro items hops hok
      rw [runOps]
      obtain ⟨hok1, hpt1⟩ := applyOp_mono items op (hops op (List.mem_cons_self op ops)) hok
      obtain ⟨hok2, hpt2⟩ := ih (applyOp items op) (fun x hx => hops x (List.mem_cons_of_mem op hx)) hok1
      refine ⟨hok2, fun i hi => ?_⟩
      have hi2 : i < (applyOp items op).length := by
        rw [applyOp_length]
        cases hput : op.isPut <;> simp [hput] <;> omega
      obtain ⟨ha, hb⟩ := hpt1 i hi
      obtain ⟨hc, hd⟩ := hpt2 i hi2
      exact ⟨le_trans hc ha, fun h => hd (hb h)⟩

/-! ### Concrete inputs used by the witnesses -/

/-- A block with a full budget of 5, as the producer deposits it. -/
def blockA : DataBlock := { timestamp := 10, block_id := 0, epsilon := 5, comment := "a" }

/-- A block whose remaining budget 0.4 is below the 0.6 cost. -/
def blockB : DataBlock := { timestamp := 20, block_id := 1, epsilon := 0.4, comment := "b" }

/-- A block already reduced to the exhausted sentinel. -/
def blockC : DataBlock := { timestamp := 30, block_id := 2, epsilon := -1, comment := "c" }

/-! ### The claims -/

/-- C1: for every withdrawal resolved by `DPStore._do_get`, each selected block
with pre-charge budget `e` and per-block cost `eps` ends with epsilon exactly
-1 when `e - eps < 0` (the shortfall magnitude is discarded) and exactly
`e - eps` otherwise; this holds both for the returned record and for the block
stored at the sampled position. -/
theorem C1_sentinel_charge (items : List DataBlock) (eps : ℚ) (n : Nat) (s : List Nat)
    (hn : n ≤ items.length) (hv : validSample items.length n s) :
    ∃ ret, (DPStore._do_get items ⟨eps, n⟩ s).1 = some ret ∧
      ∀ j, j < n →
        ((ret.getD j dummyBlock).epsilon =
          if (items.getD (s.getD j 0) dummyBlock).epsilon - eps < 0 then -1
          else (items.getD (s.getD j 0) dummyBlock).epsilon - eps) ∧
        (((DPStore._do_get items ⟨eps, n⟩ s).2.getD (s.getD j 0) dummyBlock).epsilon =
          if (items.getD (s.getD j 0) dummyBlock).epsilon - eps < 0 then -1
          else (items.getD (s.getD j 0) dummyBlock).epsilon - eps) := by
  obtain ⟨hlen, hnd, hin⟩ := hv
  rw [do_get_eq_pos items ⟨eps, n⟩ s hn]
  refine ⟨(doGetLoop eps s items).1, rfl, fun j hj => ?_⟩
  have hjs : j < s.length := by rw [hlen]; exact hj
  have hmem : s.getD j 0 ∈ s := getD_mem_of_lt s j 0 hjs
  constructor
  · rw [doGetLoop_fst eps s items hnd hin, getD_map_lt s _ j hjs, chargeBlock_epsilon]
  · rw [List.getD_eq_getElem?_getD, doGetLoop_snd_mem eps s items hnd hin _ hmem]
    simp [chargeBlock_epsilon]

/-- C1 witness: charging cost 0.6 on budgets 5 and 0.4 yields 4.4 and the
sentinel -1. -/
theorem C1_sentinel_charge_witness :
    ∃ ret, (DPStore._do_get [blockA, blockB] ⟨0.6, 2⟩ [0, 1]).1 = some ret ∧
      (ret.getD 0 dummyBlock).epsilon = 4.4 ∧ (ret.getD 1 dummyBlock).epsilon = -1 := by
  obtain ⟨ret, h1, h2⟩ :=
    C1_sentinel_charge [blockA, blockB] 0.6 2 [0, 1] (by decide) (by decide)
  refine ⟨ret, h1, ?_, ?_⟩
  · rw [(h2 0 (by decide)).1]
    norm_num [blockA]
  · rw [(h2 1 (by decide)).1]
    norm_num [blockB]

/-- C2: once the guard holds, a withdrawal of `block_nr = n` from `m ≥ n`
items resolves a sample of exactly `n` distinct positions drawn from the full
collection (no filtering of exhausted blocks) and succeeds with exactly the
`n` charged block records, in the sampling order. -/
theorem C2_sampling_cardinality (items : List DataBlock) (eps : ℚ) (n : Nat) (s : List Nat)
    (hn : n ≤ items.length) (hv : validSample items.length n s) :
    ∃ ret, (DPStore._do_get items ⟨eps, n⟩ s).1 = some ret ∧
      ret.length = n ∧ s.Nodup ∧ s.length = n ∧ (∀ i ∈ s, i < items.length) ∧
      ret = s.map (fun i => chargeBlock eps (items.getD i dummyBlock)) := by
  obtain ⟨hlen, hnd, hin⟩ := hv
  rw [do_get_eq_pos items ⟨eps, n⟩ s hn]
  refine ⟨(doGetLoop eps s items).1, rfl, ?_, hnd, hlen, hin,
    doGetLoop_fst eps s items hnd hin⟩
  rw [doGetLoop_fst eps s items hnd hin, List.length_map, hlen]

/-- C2 witness: a withdrawal of 2 blocks from a 2-item store succeeds with 2
records. -/
theorem C2_sampling_cardinality_witness :
    ∃ ret, (DPStore._do_get [blockA, blockB] ⟨0.6, 2⟩ [1, 0]).1 = some ret ∧
      ret.length = 2 := by
  obtain ⟨ret, h1, h2, _⟩ :=
    C2_sampling_cardinality [blockA, blockB] 0.6 2 [1, 0] (by decide) (by decide)
  exact ⟨ret, h1, h2⟩

/-- C3: a withdrawal with `block_nr = n` is triggered exactly when the store
holds at least `n` items; with fewer items it stays pending without error and
without touching the store, and it succeeds once later deposits bring the size
to `n` or more. -/
theorem C3_guard (items : List DataBlock) (eps : ℚ) (n : Nat) (s : List Nat) :
    (items.length < n →
        (DPStore._do_get items ⟨eps, n⟩ s).1 = none ∧
        (DPStore._do_get items ⟨eps, n⟩ s).2 = items) ∧
    (n ≤ items.length → ((DPStore._do_get items ⟨eps, n⟩ s).1).isSome = true) ∧
    (∀ (ds : List DataBlock) (s2 : List Nat), n ≤ items.length + ds.length →
        ((DPStore._do_get (items ++ ds) ⟨eps, n⟩ s2).1).isSome = true) := by
  refine ⟨fun h => ?_, fun h => ?_, fun ds s2 h => ?_⟩
  · rw [do_get_eq_neg items ⟨eps, n⟩ s (not_le.mpr h)]
    exact ⟨rfl, rfl⟩
  · rw [do_get_eq_pos items ⟨eps, n⟩ s h]
    rfl
  · have h2 : (⟨eps, n⟩ : DPStoreGet).block_nr ≤ (items ++ ds).length := by
      rw [List.length_append]
      exact h
    rw [do_get_eq_pos (items ++ ds) ⟨eps, n⟩ s2 h2]
    rfl

/-- C3 witness: a demand of 1 block on an empty store stays untriggered, and
succeeds after one deposit. -/
theorem C3_guard_witness :
    (DPStore._do_get [] ⟨0.6, 1⟩ []).1 = none ∧
    ((DPStore._do_get ([] ++ [blockA]) ⟨0.6, 1⟩ [0]).1).isSome = true :=
  ⟨((C3_guard [] 0.6 1 []).1 (by decide)).1,
   (C3_guard [] 0.6 1 []).2.2 [blockA] [0] (by decide)⟩

/-- C4: withdrawals never remove blocks. After any sequence of deposits and
withdrawal attempts the item count equals the initial count plus the number of
deposits (so starting empty, the number of deposits); a withdrawal resolution
mutates only the epsilon field of the positions it sampled, leaving every
non-epsilon field of every block and every unsampled position entirely
unchanged. -/
theorem C4_no_removal_frame (items : List DataBlock) (ops : List DPOp)
    (ev : DPStoreGet) (s : List Nat) :
    (runOps items ops).length = items.length + ops.countP DPOp.isPut ∧
    (runOps [] ops).length = ops.countP DPOp.isPut ∧
    ∀ i, (blockData ((DPStore._do_get items ev s).2.getD i dummyBlock) =
            blockData (items.getD i dummyBlock)) ∧
      (i ∉ s → (DPStore._do_get items ev s).2.getD i dummyBlock = items.getD i dummyBlock) := by
  refine ⟨runOps_length ops items, by simpa using runOps_length ops [], fun i => ⟨?_, fun hi => ?_⟩⟩
  · by_cases h : ev.block_nr ≤ items.length
    · rw [do_get_eq_pos items ev s h]
      exact doGetLoop_blockData ev.epsilon s items i
    · rw [do_get_eq_neg items ev s h]
  · by_cases h : ev.block_nr ≤ items.length
    · rw [do_get_eq_pos items ev s h, List.getD_eq_getElem?_getD,
        doGetLoop_getElem?_not_mem ev.epsilon s items i hi, ← List.getD_eq_getElem?_getD]
    · rw [do_get_eq_neg items ev s h]

/-- C4 witness: one deposit, one resolved withdrawal, one more deposit leave
two items; a withdrawal sampling position 0 leaves position 1 untouched. -/
theorem C4_no_removal_frame_witness :
    (runOps [] [DPOp.put blockA, DPOp.get ⟨0.6, 1⟩ [0], DPOp.put blockB]).length = 2 ∧
    (DPStore._do_get [blockA, blockB] ⟨0.6, 1⟩ [0]).2.getD 1 dummyBlock =
      [blockA, blockB].getD 1 dummyBlock := by
  constructor
  · rw [(C4_no_removal_frame [] [DPOp.put blockA, DPOp.get ⟨0.6, 1⟩ [0], DPOp.put blockB]
      ⟨0.6, 1⟩ []).2.1]
    decide
  · exact ((C4_no_removal_frame [blockA, blockB] [] ⟨0.6, 1⟩ [0]).2.2 1).2 (by decide)

/-- C5: assuming every withdrawal cost is non-negative and every stored or
deposited budget starts at or above the sentinel, each block's epsilon is
non-increasing over any run and never leaves -1 once it reaches it; moreover a
single charge of any non-negative cost on a sentinel block re-clamps it to -1. -/
theorem C5_budget_monotonic (items : List DataBlock) (ops : List DPOp)
    (hops : ∀ op ∈ ops, opOk op) (hok : epsOkItems items) :
    (epsOkItems (runOps items ops) ∧
      ∀ i, i < items.length →
        (((runOps items ops).getD i dummyBlock).epsilon ≤ (items.getD i dummyBlock).epsilon) ∧
        ((items.getD i dummyBlock).epsilon = -1 →
          ((runOps items ops).getD i dummyBlock).epsilon = -1)) ∧
    ∀ (b : DataBlock) (c : ℚ), 0 ≤ c → b.epsilon = -1 → (chargeBlock c b).epsilon = -1 :=
  ⟨runOps_mono ops items hops hok, fun b c hc hb => chargeBlock_sentinel c b hc hb⟩

/-- C5 witness: a store holding one exhausted block, hit by a cost-0.6
withdrawal, still shows the sentinel afterwards. -/
theorem C5_budget_monotonic_witness :
    ((runOps [blockC] [DPOp.get ⟨0.6, 1⟩ [0]]).getD 0 dummyBlock).epsilon = -1 := by
  have h := (C5_budget_monotonic [blockC] [DPOp.get ⟨0.6, 1⟩ [0]]
    (by
      intro op hop
      rw [List.mem_singleton] at hop
      subst hop
      norm_num [opOk])
    (by
      intro b hb
      rw [List.mem_singleton] at hb
      subst hb
      norm_num [blockC])).1.2 0 (by decide)
  exact h.2 rfl

/-- C6: charging is sequential, not commutative: if a block with budget `e`
survives a first charge `c1` (`e - c1 ≥ 0`), a second charge `c2` leaves it at
`e - c1 - c2` when that is non-negative and at the sentinel -1 otherwise. -/
theorem C6_sequential_charging (b : DataBlock) (c1 c2 : ℚ) (h : 0 ≤ b.epsilon - c1) :
    (chargeBlock c2 (chargeBlock c1 b)).epsilon =
      if b.epsilon - c1 - c2 < 0 then -1 else b.epsilon - c1 - c2 := by
  have h1 : ¬ (b.epsilon - c1 < 0) := not_lt.mpr h
  have h2 : (chargeBlock c1 b).epsilon = b.epsilon - c1 := by
    rw [chargeBlock_epsilon, if_neg h1]
  rw [chargeBlock_epsilon, h2]

/-- C6 witness: budget 5 charged 0.6 then 0.6 ends at 3.8. -/
theorem C6_sequential_charging_witness :
    (chargeBlock 0.6 (chargeBlock 0.6 blockA)).epsilon = 3.8 := by
  rw [C6_sequential_charging blockA 0.6 0.6 (by norm_num [blockA])]
  norm_num [blockA]

/-- C7: with horizon 100 and arrival period 10, the full run produces exactly
10 blocks, generated at virtual times 10, 20, ..., 100, the last exactly on
the horizon boundary. (The engine's horizon convention is modelled from the
spec, the engine core not being among the sources.) -/
theorem C7_ten_blocks :
    (block_generator_blocks "Generator A" SIM_TIME BLOCK_ARRIVAL_PERIOD).map
        DataBlock.timestamp = [10, 20, 30, 40, 50, 60, 70, 80, 90, 100] ∧
    (block_generator_blocks "Generator A" SIM_TIME BLOCK_ARRIVAL_PERIOD).length = 10 ∧
    ((block_generator_blocks "Generator A" SIM_TIME BLOCK_ARRIVAL_PERIOD).map
        DataBlock.timestamp).getLast? = some SIM_TIME := by
  refine ⟨?_, ?_, ?_⟩ <;> decide

/-- C8: every consumer task charges the fixed cost 0.6 and draws its block
demand exactly once as a random integer in the inclusive range
`[1, 2 * SIM_TIME / BLOCK_ARRIVAL_PERIOD]`, which is `[1, 20]` with the
scenario constants, before issuing its single withdrawal request. -/
theorem C8_consumer_demand (randint : Nat → Nat → Nat) (hr : randint_spec randint) :
    (consumer_request randint).1 = 0.6 ∧
    2 * SIM_TIME / BLOCK_ARRIVAL_PERIOD = 20 ∧
    1 ≤ (consumer_request randint).2 ∧ (consumer_request randint).2 ≤ 20 := by
  have h := hr 1 (2 * SIM_TIME / BLOCK_ARRIVAL_PERIOD) (by decide)
  have h20 : 2 * SIM_TIME / BLOCK_ARRIVAL_PERIOD = 20 := by decide
  refine ⟨rfl, h20, h.1, ?_⟩
  have h2 := h.2
  rw [h20] at h2
  exact h2

/-- C8 witness: with the draw that returns the lower bound, the request is
`(0.6, d)` with `1 ≤ d ≤ 20`. -/
theorem C8_consumer_demand_witness :
    (consumer_request (fun a _ => a)).1 = 0.6 ∧
    2 * SIM_TIME / BLOCK_ARRIVAL_PERIOD = 20 ∧
    1 ≤ (consumer_request (fun a _ => a)).2 ∧ (consumer_request (fun a _ => a)).2 ≤ 20 :=
  C8_consumer_demand (fun a _ => a) (fun a _ h => ⟨le_refl a, h⟩)

/-- C9: appending to a `SortedQueue` with a finite `maxlen` raises the
capacity-exceeded `ValueError` whenever the queue already holds at least
`maxlen` pending requests, leaving the queue unchanged; with `maxlen = None`
append always succeeds and the queue ends sorted in ascending order of the
events' `key` attribute (and holds exactly the old events plus the new one). -/
theorem C9_sorted_queue_capacity (m : Nat) (elems : List SQEvent) (item : SQEvent) :
    (m ≤ elems.length →
        SortedQueue.append (some m) elems item =
          (Except.error "Cannot append event. Queue is full.", elems)) ∧
    (SortedQueue.append none elems item).1 = Except.ok () ∧
    List.Sorted keyLE (SortedQueue.append none elems item).2 ∧
    (SortedQueue.append none elems item).2.Perm (elems ++ [item]) := by
  refine ⟨fun h => ?_, rfl, ?_, ?_⟩
  · simp [SortedQueue.append, h]
  · exact List.sorted_insertionSort keyLE _
  · exact List.perm_insertionSort keyLE _

/-- C9 witness: a full bounded queue rejects the append unchanged; an
unbounded queue accepts and stays key-sorted. -/
theorem C9_sorted_queue_capacity_witness :
    SortedQueue.append (some 0) [] ⟨1, 0⟩ =
      (Except.error "Cannot append event. Queue is full.", []) ∧
    List.Sorted keyLE (SortedQueue.append none [⟨2, 0⟩] ⟨1, 1⟩).2 :=
  ⟨(C9_sorted_queue_capacity 0 [] ⟨1, 0⟩).1 (by decide),
   (C9_sorted_queue_capacity 0 [⟨2, 0⟩] ⟨1, 1⟩).2.2.1⟩

/-- C10: releasing a `Resource` always succeeds immediately:
`Resource._do_get` triggers the `Release` event for every release request,
and when the released request is not among the current users the failed
removal is silently swallowed and the users list is unchanged. -/
theorem C10_release_always_succeeds (users : List Nat) (request : Nat) :
    (Resource._do_get users request).2 = true ∧
    (request ∉ users → (Resource._do_get users request).1 = users) := by
  constructor
  · unfold Resource._do_get list_remove
    by_cases h : request ∈ users <;> simp [h]
  · intro h
    unfold Resource._do_get list_remove
    simp [h]

/-- C10 witness: releasing a request that was never a user triggers the event
and leaves the user list as it was. -/
theorem C10_release_always_succeeds_witness :
    (Resource._do_get [5] 7).2 = true ∧ (Resource._do_get [5] 7).1 = [5] :=
  ⟨(C10_release_always_succeeds [5] 7).1,
   (C10_release_always_succeeds [5] 7).2 (by decide)⟩
